import Mathlib

/-!
Verification of the stock-GRU data pipeline (data-loader, GRU training
callbacks, prediction analysis) against its specification.

Shallow embedding conventions:
* A JavaScript number that may be non-finite (NaN, ±Infinity, undefined
  array reads) is modelled as `Option ℚ`: `some q` is a finite value,
  `none` is any non-finite value.  Finite arithmetic on the happy path is
  exact over `ℚ`.
* Arrays are Lean `List`s; out-of-range reads yield `none` / defaults
  exactly where the source can produce `undefined`.
* `Math.sqrt` (used only by `standardScale`) is kept abstract as a
  function parameter; the theorems that touch it assume only the facts of
  the real square root that the source relies on (`sqrt 0 = 0`).
-/

set_option autoImplicit false

namespace StockGru

/-- Finite values of a series, in order (JS `series.filter(Number.isFinite)`). -/
def somes (l : List (Option ℚ)) : List ℚ := l.filterMap id

/-- Forward pass of `fillMissingValues` (data-loader lines 46-55): walk the
array keeping the last finite value seen, overwriting a non-finite slot with
it when one exists. -/
def fillForwardAux : Option ℚ → List (Option ℚ) → List (Option ℚ)
  | _, [] => []
  | _, some v :: xs => some v :: fillForwardAux (some v) xs
  | some w, none :: xs => some w :: fillForwardAux (some w) xs
  | none, none :: xs => none :: fillForwardAux none xs

/-- `fillMissingValues` (data-loader lines 46-68): a forward fill pass, then
the same pass run backwards over the (already forward-filled) array. -/
def fillMissingValues (l : List (Option ℚ)) : List (Option ℚ) :=
  (fillForwardAux none (fillForwardAux none l).reverse).reverse

/-- `minMaxScale` (data-loader lines 70-78): min and max are taken over the
finite entries; an empty filtered list (`Math.min()` = Infinity) or a
degenerate `min = max` series maps to all zeros, otherwise each entry is
rescaled (non-finite entries propagate as non-finite). -/
def minMaxScale (l : List (Option ℚ)) : List (Option ℚ) :=
  match somes l with
  | [] => l.map (fun _ => some 0)
  | v :: vs =>
    let mn := vs.foldl min v
    let mx := vs.foldl max v
    if mn = mx then l.map (fun _ => some 0)
    else l.map (fun x => x.map (fun q => (q - mn) / (mx - mn)))

/-- `standardScale` (data-loader lines 80-95): mean and variance over the
finite entries; an empty filtered list or zero standard deviation maps to all
zeros, otherwise each finite entry is standardised and each non-finite entry
becomes 0.  `sqrt` abstracts `Math.sqrt`. -/
def standardScale (sqrt : ℚ → ℚ) (l : List (Option ℚ)) : List (Option ℚ) :=
  let filtered := somes l
  if filtered.length = 0 then l.map (fun _ => some 0)
  else
    let mean := filtered.sum / (filtered.length : ℚ)
    let variance := (filtered.map (fun v => (v - mean) ^ 2)).sum / (filtered.length : ℚ)
    let std := sqrt variance
    if std = 0 then l.map (fun _ => some 0)
    else l.map (fun x => match x with
      | some v => some ((v - mean) / std)
      | none => some 0)

theorem fillForwardAux_some_all_isSome (l : List (Option ℚ)) :
    ∀ v : ℚ, ∀ y ∈ fillForwardAux (some v) l, y.isSome := by
  induction l with
  | nil => intro v y hy; simp [fillForwardAux] at hy
  | cons x xs ih =>
    intro v y hy
    cases x with
    | some w =>
      simp only [fillForwardAux, List.mem_cons] at hy
      rcases hy with rfl | hy
      · rfl
      · exact ih w y hy
    | none =>
      simp only [fillForwardAux, List.mem_cons] at hy
      rcases hy with rfl | hy
      · rfl
      · exact ih v y hy

theorem fillForwardAux_structure (l : List (Option ℚ))
    (h : ∃ x ∈ l, x.isSome) :
    ∃ m : ℕ, ∃ ys : List (Option ℚ), ys ≠ [] ∧ (∀ y ∈ ys, y.isSome) ∧
      fillForwardAux none l = List.replicate m none ++ ys := by
  induction l with
  | nil => simp at h
  | cons x xs ih =>
    cases x with
    | some v =>
      refine ⟨0, some v :: fillForwardAux (some v) xs, by simp, ?_, by simp [fillForwardAux]⟩
      intro y hy
      rcases List.mem_cons.mp hy with rfl | hy
      · rfl
      · exact fillForwardAux_some_all_isSome xs v y hy
    | none =>
      have hxs : ∃ x ∈ xs, x.isSome := by
        rcases h with ⟨x, hx, hxs⟩
        rcases List.mem_cons.mp hx with rfl | hx
        · simp [Option.isSome] at hxs
        · exact ⟨x, hx, hxs⟩
      rcases ih hxs with ⟨m, ys, hne, hall, heq⟩
      exact ⟨m + 1, ys, hne, hall, by simp [fillForwardAux, heq, List.replicate_succ]⟩

theorem fillForwardAux_cons_some (v : ℚ) (rest : List (Option ℚ)) :
    ∀ y ∈ fillForwardAux none (some v :: rest), y.isSome := by
  intro y hy
  simp only [fillForwardAux, List.mem_cons] at hy
  rcases hy with rfl | hy
  · rfl
  · exact fillForwardAux_some_all_isSome rest v y hy

/-- C4 helper: if the series has a finite value then every entry of the fully
gap-filled series is finite. -/
theorem fillMissingValues_all_isSome (l : List (Option ℚ))
    (h : ∃ x ∈ l, x.isSome) :
    ∀ y ∈ fillMissingValues l, y.isSome := by
  rcases fillForwardAux_structure l h with ⟨m, ys, hne, hall, heq⟩
  intro y hy
  unfold fillMissingValues at hy
  rw [heq] at hy
  rw [List.mem_reverse] at hy
  rw [List.reverse_append, List.reverse_replicate] at hy
  rcases List.exists_cons_of_ne_nil hne with ⟨z, zs, rfl⟩
  have hz : z.isSome := hall z (by simp)
  rcases Option.isSome_iff_exists.mp hz with ⟨v, rfl⟩
  rw [List.reverse_cons] at hy
  rcases List.exists_cons_of_ne_nil (l := zs.reverse ++ [some v])
      (by simp) with ⟨w, ws, hw⟩
  rw [hw, List.cons_append] at hy
  by_cases hwsome : w.isSome
  · rcases Option.isSome_iff_exists.mp hwsome with ⟨u, rfl⟩
    exact fillForwardAux_cons_some u _ y hy
  · have hwmem : w ∈ zs.reverse ++ [some v] := by rw [hw]; simp
    rcases List.mem_append.mp hwmem with hmem | hmem
    · exact absurd (hall w (by simp [List.mem_reverse.mp hmem])) hwsome
    · simp at hmem
      subst hmem
      exact absurd rfl hwsome

theorem length_fillForwardAux (l : List (Option ℚ)) :
    ∀ c : Option ℚ, (fillForwardAux c l).length = l.length := by
  induction l with
  | nil => intro c; cases c <;> rfl
  | cons x xs ih =>
    intro c
    cases x with
    | some v => simp [fillForwardAux, ih]
    | none =>
      cases c with
      | some w => simp [fillForwardAux, ih]
      | none => simp [fillForwardAux, ih]

/-- The forward pass never changes a position that already holds a finite
value. -/
theorem fillForwardAux_preserves (l : List (Option ℚ)) :
    ∀ (c : Option ℚ) (i : ℕ) (v : ℚ), l[i]? = some (some v) →
      (fillForwardAux c l)[i]? = some (some v) := by
  induction l with
  | nil => intro c i v h; simp at h
  | cons x xs ih =>
    intro c i v h
    cases i with
    | zero =>
      simp at h
      subst h
      cases c <;> simp [fillForwardAux]
    | succ n =>
      have h' : xs[n]? = some (some v) := by simpa using h
      cases x with
      | some w => simpa [fillForwardAux] using ih (some w) n v h'
      | none =>
        cases c with
        | some w => simpa [fillForwardAux] using ih (some w) n v h'
        | none => simpa [fillForwardAux] using ih none n v h'

/-- The running carry of the forward pass (the JS `lastValid` variable)
after consuming a list, starting from `c`. -/
def carryAfter (c : Option ℚ) (l : List (Option ℚ)) : Option ℚ :=
  l.foldl (fun acc x => match x with | some v => some v | none => acc) c

theorem carryAfter_append (c : Option ℚ) (l l' : List (Option ℚ)) :
    carryAfter c (l ++ l') = carryAfter (carryAfter c l) l' :=
  List.foldl_append _ _ _ _

theorem carryAfter_all_none (l : List (Option ℚ)) :
    ∀ c : Option ℚ, (∀ x ∈ l, x = none) → carryAfter c l = c := by
  induction l with
  | nil => intro c _; rfl
  | cons x xs ih =>
    intro c h
    have hx : x = none := h x (by simp)
    subst hx
    show carryAfter c xs = c
    exact ih c (fun y hy => h y (by simp [hy]))

/-- The forward pass writes the current carry into every non-finite
position. -/
theorem fillForwardAux_gap (l : List (Option ℚ)) :
    ∀ (c : Option ℚ) (i : ℕ), l[i]? = some none →
      (fillForwardAux c l)[i]? = some (carryAfter c (l.take i)) := by
  induction l with
  | nil => intro c i h; simp at h
  | cons x xs ih =>
    intro c i h
    cases i with
    | zero =>
      simp at h
      subst h
      cases c with
      | some w => simp [fillForwardAux, carryAfter]
      | none => simp [fillForwardAux, carryAfter]
    | succ n =>
      have h' : xs[n]? = some none := by simpa using h
      have htake : (x :: xs).take (n + 1) = x :: xs.take n := rfl
      rw [htake]
      cases x with
      | some w =>
        have hc : carryAfter c (some w :: xs.take n) =
            carryAfter (some w) (xs.take n) := rfl
        rw [hc]
        simpa [fillForwardAux] using ih (some w) n h'
      | none =>
        cases c with
        | some u =>
          have hc : carryAfter (some u) (none :: xs.take n) =
              carryAfter (some u) (xs.take n) := rfl
          rw [hc]
          simpa [fillForwardAux] using ih (some u) n h'
        | none =>
          have hc : carryAfter none (none :: xs.take n) =
              carryAfter none (xs.take n) := rfl
          rw [hc]
          simpa [fillForwardAux] using ih none n h'

/-- When `j` is the most recent finite position before `i` (everything
strictly between is non-finite), the carry reaching position `i` is the
value at `j`. -/
theorem carryAfter_take_recent (l : List (Option ℚ)) (i j : ℕ) (v : ℚ)
    (hji : j < i) (hj : l[j]? = some (some v))
    (hrecent : ∀ m, j < m → m < i → l[m]? = some none) :
    carryAfter none (l.take i) = some v := by
  have hdecomp : l.take i = l.take (j + 1) ++ (l.drop (j + 1)).take (i - (j + 1)) := by
    rw [← List.take_add]
    congr 1
    omega
  rw [hdecomp, carryAfter_append]
  have hj1 : l.take (j + 1) = l.take j ++ [some v] := by
    rw [List.take_succ, hj]
    rfl
  have hcj : carryAfter none (l.take (j + 1)) = some v := by
    rw [hj1, carryAfter_append]
    rfl
  rw [hcj]
  apply carryAfter_all_none
  intro x hx
  rcases List.mem_iff_getElem.mp hx with ⟨m, hm, rfl⟩
  have hmlt : m < i - (j + 1) := by
    rw [List.length_take] at hm
    omega
  rw [List.getElem_take, List.getElem_drop]
  have hsome := hrecent (j + 1 + m) (by omega) (by omega)
  rcases List.getElem?_eq_some_iff.mp hsome with ⟨hlt, heq⟩
  exact heq

/-- C4: after gap-filling, a series with at least one finite value has no
non-finite position left; a gap that has an earlier finite value is filled
with the most recent earlier finite value (forward fill wins over back
fill); in particular `[1, NaN, 3]` fills to `[1, 1, 3]`. -/
theorem claim_C4_gap_filling (l : List (Option ℚ)) :
    ((∃ x ∈ l, x.isSome) → ∀ y ∈ fillMissingValues l, y.isSome) ∧
    (∀ (i j : ℕ) (v : ℚ), j < i → l[i]? = some none →
      l[j]? = some (some v) → (∀ m, j < m → m < i → l[m]? = some none) →
      (fillMissingValues l)[i]? = some (some v)) ∧
    fillMissingValues [some 1, none, some 3] = [some 1, some 1, some 3] := by
  refine ⟨fillMissingValues_all_isSome l, ?_, by decide⟩
  intro i j v hji hgap hj hrecent
  have hilen : i < l.length := (List.getElem?_eq_some_iff.mp hgap).1
  have hfwd : (fillForwardAux none l)[i]? = some (some v) := by
    rw [fillForwardAux_gap l none i hgap,
      carryAfter_take_recent l i j v hji hj hrecent]
  set f := fillForwardAux none l with hf
  have hflen : f.length = l.length := length_fillForwardAux l none
  have hrev : f.reverse[f.length - 1 - i]? = some (some v) := by
    rw [List.getElem?_reverse (by omega)]
    have harith : f.length - 1 - (f.length - 1 - i) = i := by omega
    rw [harith]
    exact hfwd
  have hbwd : (fillForwardAux none f.reverse)[f.length - 1 - i]? =
      some (some v) :=
    fillForwardAux_preserves f.reverse none (f.length - 1 - i) v hrev
  unfold fillMissingValues
  rw [← hf]
  have hglen : (fillForwardAux none f.reverse).length = l.length := by
    rw [length_fillForwardAux, List.length_reverse, hflen]
  rw [List.getElem?_reverse (by omega)]
  have harith2 : (fillForwardAux none f.reverse).length - 1 - i =
      f.length - 1 - i := by omega
  rw [harith2]
  exact hbwd

/-- Witness for C4 at the concrete series `[1, NaN, 3]`: the gap at
position 1 is filled from position 0 (the most recent earlier finite
value). -/
theorem claim_C4_gap_filling_witness :
    (∀ y ∈ fillMissingValues [some 1, none, some 3], y.isSome) ∧
    (fillMissingValues [some 1, none, some 3])[1]? = some (some 1) ∧
    fillMissingValues [some 1, none, some 3] = [some 1, some 1, some 3] :=
  ⟨(claim_C4_gap_filling [some 1, none, some 3]).1 ⟨some 1, by simp, rfl⟩,
   (claim_C4_gap_filling [some 1, none, some 3]).2.1 1 0 1 (by decide)
     (by decide) (by decide) (fun m h1 h2 => by omega),
   (claim_C4_gap_filling [some 1, none, some 3]).2.2⟩

theorem foldl_min_le_init (vs : List ℚ) : ∀ v : ℚ, vs.foldl min v ≤ v := by
  induction vs with
  | nil => intro v; exact le_refl v
  | cons x xs ih =>
    intro v
    calc (x :: xs).foldl min v = xs.foldl min (min v x) := by rfl
    _ ≤ min v x := ih (min v x)
    _ ≤ v := min_le_left v x

theorem foldl_min_le_mem (vs : List ℚ) :
    ∀ v q : ℚ, q ∈ vs → vs.foldl min v ≤ q := by
  induction vs with
  | nil => intro v q hq; simp at hq
  | cons x xs ih =>
    intro v q hq
    rcases List.mem_cons.mp hq with rfl | hq
    · calc (q :: xs).foldl min v = xs.foldl min (min v q) := by rfl
      _ ≤ min v q := foldl_min_le_init xs (min v q)
      _ ≤ q := min_le_right v q
    · exact ih (min v x) q hq

theorem init_le_foldl_max (vs : List ℚ) : ∀ v : ℚ, v ≤ vs.foldl max v := by
  induction vs with
  | nil => intro v; exact le_refl v
  | cons x xs ih =>
    intro v
    calc v ≤ max v x := le_max_left v x
    _ ≤ xs.foldl max (max v x) := ih (max v x)
    _ = (x :: xs).foldl max v := by rfl

theorem mem_le_foldl_max (vs : List ℚ) :
    ∀ v q : ℚ, q ∈ vs → q ≤ vs.foldl max v := by
  induction vs with
  | nil => intro v q hq; simp at hq
  | cons x xs ih =>
    intro v q hq
    rcases List.mem_cons.mp hq with rfl | hq
    · calc q ≤ max v q := le_max_right v q
      _ ≤ xs.foldl max (max v q) := init_le_foldl_max xs (max v q)
      _ = (q :: xs).foldl max v := by rfl
    · exact ih (max v x) q hq

theorem foldl_min_const (vs : List ℚ) :
    ∀ v : ℚ, (∀ q ∈ vs, q = v) → vs.foldl min v = v := by
  induction vs with
  | nil => intro v _; rfl
  | cons x xs ih =>
    intro v hv
    have hx : x = v := hv x (by simp)
    subst hx
    have : (x :: xs).foldl min x = xs.foldl min x := by simp [List.foldl_cons]
    rw [this]
    exact ih x (fun q hq => hv q (by simp [hq]))

theorem foldl_max_const (vs : List ℚ) :
    ∀ v : ℚ, (∀ q ∈ vs, q = v) → vs.foldl max v = v := by
  induction vs with
  | nil => intro v _; rfl
  | cons x xs ih =>
    intro v hv
    have hx : x = v := hv x (by simp)
    subst hx
    have : (x :: xs).foldl max x = xs.foldl max x := by simp [List.foldl_cons]
    rw [this]
    exact ih x (fun q hq => hv q (by simp [hq]))

theorem mem_somes {l : List (Option ℚ)} {q : ℚ} (h : some q ∈ l) : q ∈ somes l := by
  unfold somes
  exact List.mem_filterMap.mpr ⟨some q, h, rfl⟩

/-- C5 part 1: the rescaled value of every entry of an all-finite series lies
in the unit interval. -/
theorem minMaxScale_mem_unit (l : List (Option ℚ)) (hfin : ∀ x ∈ l, x.isSome) :
    ∀ y ∈ minMaxScale l, ∃ q : ℚ, y = some q ∧ 0 ≤ q ∧ q ≤ 1 := by
  intro y hy
  unfold minMaxScale at hy
  rcases hsm : somes l with _ | ⟨v, vs⟩
  · rw [hsm] at hy
    rcases List.mem_map.mp hy with ⟨x, _, rfl⟩
    exact ⟨0, rfl, le_refl 0, zero_le_one⟩
  · rw [hsm] at hy
    simp only at hy
    by_cases hdeg : vs.foldl min v = vs.foldl max v
    · rw [if_pos hdeg] at hy
      rcases List.mem_map.mp hy with ⟨x, _, rfl⟩
      exact ⟨0, rfl, le_refl 0, zero_le_one⟩
    · rw [if_neg hdeg] at hy
      rcases List.mem_map.mp hy with ⟨x, hx, rfl⟩
      rcases Option.isSome_iff_exists.mp (hfin x hx) with ⟨q, rfl⟩
      refine ⟨(q - vs.foldl min v) / (vs.foldl max v - vs.foldl min v), rfl, ?_, ?_⟩
      · have hqmem : q ∈ v :: vs := by rw [← hsm]; exact mem_somes hx
        have hmin : vs.foldl min v ≤ q := by
          rcases List.mem_cons.mp hqmem with rfl | hq
          · exact foldl_min_le_init vs q
          · exact foldl_min_le_mem vs v q hq
        have hmax : q ≤ vs.foldl max v := by
          rcases List.mem_cons.mp hqmem with rfl | hq
          · exact init_le_foldl_max vs q
          · exact mem_le_foldl_max vs v q hq
        have hlt : vs.foldl min v < vs.foldl max v :=
          lt_of_le_of_ne (le_trans hmin hmax) hdeg
        exact div_nonneg (by linarith) (by linarith)
      · have hqmem : q ∈ v :: vs := by rw [← hsm]; exact mem_somes hx
        have hmax : q ≤ vs.foldl max v := by
          rcases List.mem_cons.mp hqmem with rfl | hq
          · exact init_le_foldl_max vs q
          · exact mem_le_foldl_max vs v q hq
        have hmin : vs.foldl min v ≤ q := by
          rcases List.mem_cons.mp hqmem with rfl | hq
          · exact foldl_min_le_init vs q
          · exact foldl_min_le_mem vs v q hq
        have hlt : vs.foldl min v < vs.foldl max v :=
          lt_of_le_of_ne (le_trans hmin hmax) hdeg
        rw [div_le_one (by linarith)]
        linarith

/-- C5 part 2: min-max scaling of a series whose finite entries are constant
yields all zeros. -/
theorem minMaxScale_const (l : List (Option ℚ)) (c : ℚ)
    (hconst : ∀ q ∈ somes l, q = c) :
    minMaxScale l = l.map (fun _ => some 0) := by
  unfold minMaxScale
  rcases hsm : somes l with _ | ⟨v, vs⟩
  · rfl
  · have hv : v = c := hconst v (by rw [hsm]; simp)
    subst hv
    have hvs : ∀ q ∈ vs, q = v := fun q hq => hconst q (by rw [hsm]; simp [hq])
    simp only
    rw [if_pos (by rw [foldl_min_const vs v hvs, foldl_max_const vs v hvs])]

/-- C5 part 3: standard scaling of a series whose finite entries are constant
yields all zeros (the variance is 0, so the zero-std branch is taken). -/
theorem standardScale_const (sqrt : ℚ → ℚ) (l : List (Option ℚ)) (c : ℚ)
    (hsq : sqrt 0 = 0) (hconst : ∀ q ∈ somes l, q = c) :
    standardScale sqrt l = l.map (fun _ => some 0) := by
  unfold standardScale
  by_cases hlen : (somes l).length = 0
  · rw [if_pos hlen]
  · rw [if_neg hlen]
    have hlenQ : ((somes l).length : ℚ) ≠ 0 := Nat.cast_ne_zero.mpr hlen
    have hsum : (somes l).sum = (somes l).length • c :=
      List.sum_eq_card_nsmul (somes l) c hconst
    have hmean : (somes l).sum / ((somes l).length : ℚ) = c := by
      rw [hsum, nsmul_eq_mul]
      field_simp
    have hdev : ((somes l).map
        (fun v => (v - (somes l).sum / ((somes l).length : ℚ)) ^ 2)).sum = 0 := by
      have : ∀ x ∈ (somes l).map
          (fun v => (v - (somes l).sum / ((somes l).length : ℚ)) ^ 2), x = 0 := by
        intro x hx
        rcases List.mem_map.mp hx with ⟨q, hq, rfl⟩
        rw [hmean, hconst q hq]
        ring
      rw [List.sum_eq_card_nsmul _ 0 this, smul_zero]
    simp only
    rw [hdev, zero_div, hsq, if_pos rfl]

/-- C5: every min-max rescaled value of an all-finite series lies in `[0, 1]`,
and a constant (hence zero-variance) series is mapped to all zeros by both
min-max scaling and standard scaling instead of failing. -/
theorem claim_C5_scaling :
    (∀ l : List (Option ℚ), (∀ x ∈ l, x.isSome) →
      ∀ y ∈ minMaxScale l, ∃ q : ℚ, y = some q ∧ 0 ≤ q ∧ q ≤ 1) ∧
    (∀ (l : List (Option ℚ)) (c : ℚ), (∀ q ∈ somes l, q = c) →
      minMaxScale l = l.map (fun _ => some 0)) ∧
    (∀ (sqrt : ℚ → ℚ) (l : List (Option ℚ)) (c : ℚ), sqrt 0 = 0 →
      (∀ q ∈ somes l, q = c) → standardScale sqrt l = l.map (fun _ => some 0)) :=
  ⟨minMaxScale_mem_unit,
   minMaxScale_const,
   fun sqrt l c hsq hconst => standardScale_const sqrt l c hsq hconst⟩

/-- Witness for C5 on concrete series: `[1, 3]` scales into the unit
interval, and the constant series `[5, 5]` maps to `[0, 0]` under both
scalings (with `sqrt` instantiated to a function fixing 0). -/
theorem claim_C5_scaling_witness :
    (∀ y ∈ minMaxScale [some 1, some 3], ∃ q : ℚ, y = some q ∧ 0 ≤ q ∧ q ≤ 1) ∧
    minMaxScale [some 5, some 5] = [some 0, some 0] ∧
    standardScale (fun q => q) [some 5, some 5] = [some 0, some 0] := by
  refine ⟨claim_C5_scaling.1 [some 1, some 3] (by decide), ?_, ?_⟩
  · have h := claim_C5_scaling.2.1 [some 5, some 5] 5 (by decide)
    simpa using h
  · have h := claim_C5_scaling.2.2 (fun q => q) [some 5, some 5] 5 rfl (by decide)
    simpa using h

/-- Configuration of `createReduceLROnPlateauCallback` (gru.js lines 44-50). -/
structure LRConfig where
  factor : ℚ
  patience : ℕ
  minDelta : ℚ
  minLR : ℚ

/-- Closure state of the plateau callback plus the optimizer's learning rate:
`best = none` models the initial `Number.POSITIVE_INFINITY` best value. -/
structure LRState where
  best : Option ℚ
  wait : ℕ
  lr : ℚ

/-- The `next < lr - 1e-12` guard constant of gru.js line 72. -/
def lrEps : ℚ := 1 / 1000000000000

/-- One `onEpochEnd` step of the plateau callback (gru.js lines 55-81): a
missing or non-finite monitored metric leaves the state untouched; an
improvement by more than `minDelta` resets best and wait; otherwise wait
increments and, upon reaching the patience, the learning rate is multiplied
by `factor` (floored at `minLR`) when that actually lowers it, and wait
resets either way.  `stepLRStall` is the non-improving branch (gru.js lines
65-78), `stepLR` the whole epoch-end handler. -/
def stepLRStall (cfg : LRConfig) (st : LRState) : LRState :=
  let wait := st.wait + 1
  if cfg.patience ≤ wait then
    let next := max (st.lr * cfg.factor) cfg.minLR
    if next < st.lr - lrEps then { best := st.best, wait := 0, lr := next }
    else { best := st.best, wait := 0, lr := st.lr }
  else { best := st.best, wait := wait, lr := st.lr }

def stepLR (cfg : LRConfig) (st : LRState) (metric : Option ℚ) : LRState :=
  match metric with
  | none => st
  | some current =>
    match st.best with
    | none => { st with best := some current, wait := 0 }
    | some b =>
      if current < b - cfg.minDelta then { st with best := some current, wait := 0 }
      else stepLRStall cfg st

/-- The configuration of spec scenario D: patience 2, factor 1/2,
minDelta 1e-4, minLR 1e-5. -/
def plateauScenarioConfig : LRConfig :=
  { factor := 1 / 2, patience := 2, minDelta := 1 / 10000, minLR := 1 / 100000 }

/-- The learning rate never drops below `minLR` in a single step, provided it
starts at or above it. -/
theorem stepLR_minLR_le (cfg : LRConfig) (st : LRState) (m : Option ℚ)
    (h : cfg.minLR ≤ st.lr) : cfg.minLR ≤ (stepLR cfg st m).lr := by
  cases m with
  | none => exact h
  | some current =>
    cases hb : st.best with
    | none => simp only [stepLR, hb]; exact h
    | some b =>
      simp only [stepLR, hb]
      split
      · exact h
      · unfold stepLRStall
        simp only
        split
        · split
          · exact le_max_right _ _
          · exact h
        · exact h

/-- Over any metric stream, the learning rate never drops below `minLR` if it
starts at or above it. -/
theorem foldl_stepLR_minLR_le (cfg : LRConfig) (ms : List (Option ℚ)) :
    ∀ st : LRState, cfg.minLR ≤ st.lr → cfg.minLR ≤ (ms.foldl (stepLR cfg) st).lr := by
  induction ms with
  | nil => intro st h; exact h
  | cons m ms ih =>
    intro st h
    exact ih (stepLR cfg st m) (stepLR_minLR_le cfg st m h)

/-- C6: with patience 2, factor 1/2, minLR 1e-5, current learning rate 1e-3
and an established best `b`, three consecutive non-improving epochs halve the
learning rate exactly once — at the second failure, where the wait counter
reaches the patience — and for every metric stream the controller never sets
the learning rate below minLR. -/
theorem claim_C6_plateau (b m1 m2 m3 : ℚ)
    (h1 : ¬ m1 < b - plateauScenarioConfig.minDelta)
    (h2 : ¬ m2 < b - plateauScenarioConfig.minDelta)
    (h3 : ¬ m3 < b - plateauScenarioConfig.minDelta) :
    (stepLR plateauScenarioConfig ⟨some b, 0, 1 / 1000⟩ (some m1) =
        ⟨some b, 1, 1 / 1000⟩) ∧
    (stepLR plateauScenarioConfig ⟨some b, 1, 1 / 1000⟩ (some m2) =
        ⟨some b, 0, 1 / 2000⟩) ∧
    (stepLR plateauScenarioConfig ⟨some b, 0, 1 / 2000⟩ (some m3) =
        ⟨some b, 1, 1 / 2000⟩) ∧
    (∀ (ms : List (Option ℚ)) (best : Option ℚ) (wait : ℕ) (lr : ℚ),
      plateauScenarioConfig.minLR ≤ lr →
      plateauScenarioConfig.minLR ≤
        (ms.foldl (stepLR plateauScenarioConfig) ⟨best, wait, lr⟩).lr) := by
  refine ⟨?_, ?_, ?_, ?_⟩
  · simp only [stepLR]
    rw [if_neg h1]
    simp [stepLRStall, plateauScenarioConfig]
  · simp only [stepLR]
    rw [if_neg h2]
    simp only [stepLRStall, plateauScenarioConfig]
    norm_num [lrEps]
  · simp only [stepLR]
    rw [if_neg h3]
    simp [stepLRStall, plateauScenarioConfig]
  · intro ms best wait lr hlr
    exact foldl_stepLR_minLR_le plateauScenarioConfig ms ⟨best, wait, lr⟩ hlr

/-- Witness for C6: concrete best value 1 and stalled metric stream 1, 1, 1. -/
theorem claim_C6_plateau_witness :
    (stepLR plateauScenarioConfig ⟨some 1, 0, 1 / 1000⟩ (some 1) =
        ⟨some 1, 1, 1 / 1000⟩) ∧
    (stepLR plateauScenarioConfig ⟨some 1, 1, 1 / 1000⟩ (some 1) =
        ⟨some 1, 0, 1 / 2000⟩) ∧
    (stepLR plateauScenarioConfig ⟨some 1, 0, 1 / 2000⟩ (some 1) =
        ⟨some 1, 1, 1 / 2000⟩) ∧
    (∀ (ms : List (Option ℚ)) (best : Option ℚ) (wait : ℕ) (lr : ℚ),
      plateauScenarioConfig.minLR ≤ lr →
      plateauScenarioConfig.minLR ≤
        (ms.foldl (stepLR plateauScenarioConfig) ⟨best, wait, lr⟩).lr) :=
  claim_C6_plateau 1 1 1 1
    (by norm_num [plateauScenarioConfig])
    (by norm_num [plateauScenarioConfig])
    (by norm_num [plateauScenarioConfig])

/-- Per-symbol confusion counters of `analysePredictions` (gru.js line 325). -/
structure Confusion where
  tp : ℕ
  fp : ℕ
  fn : ℕ
  tn : ℕ
deriving DecidableEq

/-- Sum of the four confusion counters. -/
def Confusion.total (c : Confusion) : ℕ := c.tp + c.fp + c.fn + c.tn

/-- The thresholded binary call (gru.js line 335): `pred = p >= 0.5 ? 1 : 0`. -/
def predCall (p : ℚ) : ℕ := if 1 / 2 ≤ p then 1 else 0

/-- One cell classification of `analysePredictions` (gru.js lines 338-346):
the prediction is thresholded and the `(pred, actual)` pair increments exactly
one of the four counters, with the trailing `else` catching every remaining
case as a true negative. -/
def bump (c : Confusion) (p a : ℚ) : Confusion :=
  if predCall p = 1 ∧ a = 1 then { c with tp := c.tp + 1 }
  else if predCall p = 1 ∧ a = 0 then { c with fp := c.fp + 1 }
  else if predCall p = 0 ∧ a = 1 then { c with fn := c.fn + 1 }
  else { c with tn := c.tn + 1 }

/-- Confusion counts accumulated for symbol `s` by `analysePredictions`
(gru.js lines 328-365): for every row index and every horizon day, the cell
at flat offset `s * H + day` of the prediction row and ground-truth row is
classified. -/
def confusionFor (preds gts : List (List ℚ)) (H s : ℕ) : Confusion :=
  (List.range preds.length).foldl
    (fun c r =>
      (List.range H).foldl
        (fun c2 day => bump c2 ((preds.getD r []).getD (s * H + day) 0)
          ((gts.getD r []).getD (s * H + day) 0)) c)
    ⟨0, 0, 0, 0⟩

theorem total_bump (c : Confusion) (p a : ℚ) :
    (bump c p a).total = c.total + 1 := by
  unfold bump Confusion.total
  split_ifs <;> simp <;> omega

theorem total_foldl {α : Type} (l : List α) (step : Confusion → α → Confusion)
    (k : ℕ) (hstep : ∀ c x, (step c x).total = c.total + k) :
    ∀ c : Confusion, (l.foldl step c).total = c.total + l.length * k := by
  induction l with
  | nil => intro c; simp
  | cons x xs ih =>
    intro c
    rw [List.foldl_cons, ih (step c x), hstep c x]
    simp [Nat.succ_mul]
    omega

/-- C7 core: for every symbol the four confusion counts of
`analysePredictions` sum to (number of rows) × (horizon). -/
theorem confusionFor_total (preds gts : List (List ℚ)) (H s : ℕ) :
    (confusionFor preds gts H s).total = preds.length * H := by
  unfold confusionFor
  rw [total_foldl (List.range preds.length) _ H ?hstep ⟨0, 0, 0, 0⟩]
  · simp [Confusion.total]
  case hstep =>
    intro c r
    rw [total_foldl (List.range H) _ 1 ?hinner c]
    · simp
    case hinner =>
      intro c2 day
      exact total_bump c2 _ _

/-- C7: for prediction and ground-truth matrices of shape
samples × (symbols · horizon) with binary ground truth, every symbol's four
confusion counts sum to samples × horizon, and the counts summed over all
symbols equal samples × symbols × horizon. -/
theorem claim_C7_confusion_totals (preds gts : List (List ℚ)) (symbols H : ℕ)
    (hlen : gts.length = preds.length)
    (hrow : ∀ row ∈ preds, row.length = symbols * H)
    (hgrow : ∀ row ∈ gts, row.length = symbols * H)
    (hbin : ∀ row ∈ gts, ∀ a ∈ row, a = 0 ∨ a = 1) :
    (∀ s < symbols, (confusionFor preds gts H s).total = preds.length * H) ∧
    ((List.range symbols).map
      (fun s => (confusionFor preds gts H s).total)).sum =
        preds.length * symbols * H := by
  constructor
  · intro s _
    exact confusionFor_total preds gts H s
  · have hmap : (List.range symbols).map
        (fun s => (confusionFor preds gts H s).total) =
        List.replicate symbols (preds.length * H) := by
      apply List.eq_replicate_iff.mpr
      constructor
      · simp
      · intro x hx
        rcases List.mem_map.mp hx with ⟨s, _, rfl⟩
        exact confusionFor_total preds gts H s
    rw [hmap, List.sum_replicate, smul_eq_mul]
    ring

/-- Witness for C7: one sample, two symbols, horizon 1. -/
theorem claim_C7_confusion_totals_witness :
    (∀ s < 2, (confusionFor [[(1 : ℚ) / 2, 1 / 4]] [[(1 : ℚ), 0]] 1 s).total =
      [[(1 : ℚ) / 2, 1 / 4]].length * 1) ∧
    ((List.range 2).map
      (fun s => (confusionFor [[(1 : ℚ) / 2, 1 / 4]] [[(1 : ℚ), 0]] 1 s).total)).sum =
        [[(1 : ℚ) / 2, 1 / 4]].length * 2 * 1 :=
  claim_C7_confusion_totals [[(1 : ℚ) / 2, 1 / 4]] [[(1 : ℚ), 0]] 2 1
    rfl (by decide) (by decide) (by decide)

/-- C10: a predicted probability of exactly 0.5 is thresholded to a positive
call (the comparison is a non-strict `>= 0.5`): with actual 0 it lands in the
false-positive bucket and with actual 1 in the true-positive bucket, while a
probability just below 0.5 thresholds to 0. -/
theorem claim_C10_half_is_positive :
    predCall (1 / 2) = 1 ∧
    bump ⟨0, 0, 0, 0⟩ (1 / 2) 0 = ⟨0, 1, 0, 0⟩ ∧
    bump ⟨0, 0, 0, 0⟩ (1 / 2) 1 = ⟨1, 0, 0, 0⟩ ∧
    predCall (49 / 100) = 0 := by
  refine ⟨?_, ?_, ?_, ?_⟩ <;> norm_num [bump, predCall]

/-- State of a `DataLoader` after `buildFeatureCube` (data-loader lines
97-109), abstracted positionally: symbols and features are referred to by
their index in the sorted `symbols` / `featuresPerSymbol` arrays, dates by
their index in the sorted `dates` array.  `norm s f t` is
`normalisedCube[symbol s][feature f][t]` and `closeRaw s t` is
`featureCube[symbol s].Close[t]`; both are `none` where the array holds a
non-finite value (or the index is out of range).  `dateAt t` is the calendar
date at date index `t`, as an ordinal. -/
structure Loader where
  sequenceLength : ℕ
  predictionHorizon : ℕ
  trainSplit : ℚ
  numSymbols : ℕ
  numFeatures : ℕ
  numDates : ℕ
  dateAt : ℕ → ℤ
  norm : ℕ → ℕ → ℕ → Option ℚ
  closeRaw : ℕ → ℕ → Option ℚ

/-- Abort-style accumulation: apply `g` to each element in order, collecting
the results, and fail as soon as one is `none` (the `valid = false; break`
pattern of the windowing loops). -/
def collect {α β : Type} : List α → (α → Option β) → Option (List β)
  | [], _ => some []
  | x :: xs, g =>
    match g x with
    | none => none
    | some y => (collect xs g).map (fun ys => y :: ys)

/-- One timestep of a window (data-loader lines 290-316): the normalized
features of every symbol at date index `t`, symbol-major, aborting on any
non-finite value. -/
def timestep (ld : Loader) (t : ℕ) : Option (List ℚ) :=
  (collect (List.range ld.numSymbols) (fun s =>
    collect (List.range ld.numFeatures) (fun f => ld.norm s f t))).map List.flatten

/-- The input sequence for anchor `a` (data-loader lines 288-317): timesteps
at date indices `a - (L-1), …, a` in increasing order, aborting on any
non-finite value. -/
def buildSequence (ld : Loader) (a : ℕ) : Option (List (List ℚ)) :=
  collect (List.range ld.sequenceLength)
    (fun i => timestep ld (a - (ld.sequenceLength - 1 - i)))

/-- The label entries contributed by symbol `s` at anchor `a` (data-loader
lines 326-346): compare the raw close at `a + k` (1 ≤ k ≤ H) against the raw
close at `a`, aborting if the anchor close or any future close is
non-finite. -/
def targetForSymbol (ld : Loader) (a s : ℕ) : Option (List ℕ) :=
  match ld.closeRaw s a with
  | none => none
  | some base =>
    collect (List.range ld.predictionHorizon)
      (fun k => (ld.closeRaw s (a + k + 1)).map
        (fun fut => if base < fut then (1 : ℕ) else 0))

/-- The full label vector for anchor `a`: the per-symbol label blocks
concatenated in symbol order. -/
def buildTarget (ld : Loader) (a : ℕ) : Option (List ℕ) :=
  (collect (List.range ld.numSymbols) (fun s => targetForSymbol ld a s)).map
    List.flatten

/-- Candidate anchors (data-loader line 284): `sequenceLength - 1 ≤ anchor <
numDates - predictionHorizon`. -/
def anchorList (ld : Loader) : List ℕ :=
  List.range' (ld.sequenceLength - 1)
    ((ld.numDates - ld.predictionHorizon) - (ld.sequenceLength - 1))

/-- The sample emitted at anchor `a`, if both its sequence and its label
vector are valid. -/
def sampleAt (ld : Loader) (a : ℕ) : Option (ℕ × List (List ℚ) × List ℕ) :=
  match buildSequence ld a, buildTarget ld a with
  | some seq, some tgt => some (a, seq, tgt)
  | _, _ => none

/-- The dataset (data-loader lines 276-355): one sample per anchor passing
both validity checks, in increasing anchor order. -/
def samples (ld : Loader) : List (ℕ × List (List ℚ) × List ℕ) :=
  (anchorList ld).filterMap (sampleAt ld)

/-- Number of produced samples. -/
def numSamples (ld : Loader) : ℕ := (samples ld).length

/-- The train/test split position (data-loader lines 371-372):
`Math.min(N - 1, Math.max(1, Math.floor(N * trainSplit)))`. -/
def splitIndex (n : ℕ) (p : ℚ) : ℕ :=
  min (n - 1) (max 1 (Int.toNat ⌊(n : ℚ) * p⌋))

/-- The two failure modes of `createWindowedDataset` (data-loader lines
357-359 and 365-369). -/
inductive DatasetError where
  | noSequences
  | notEnoughSamples
deriving DecidableEq

/-- The successful result of `createWindowedDataset`: train and test sample
slices, the anchor dates of all samples, and the split position. -/
structure DatasetSplit where
  train : List (ℕ × List (List ℚ) × List ℕ)
  test : List (ℕ × List (List ℚ) × List ℕ)
  sampleDates : List ℤ
  splitIdx : ℕ
deriving DecidableEq

/-- `createWindowedDataset` (data-loader lines 276-389): build the samples,
fail when there are none, fail when there are fewer than two, otherwise split
the sample list at `splitIndex` into a train prefix and a test suffix. -/
def createWindowedDataset (ld : Loader) : Except DatasetError DatasetSplit :=
  let smp := samples ld
  if smp.length = 0 then .error .noSequences
  else if smp.length < 2 then .error .notEnoughSamples
  else .ok
    { train := smp.take (splitIndex smp.length ld.trainSplit)
      test := smp.drop (splitIndex smp.length ld.trainSplit)
      sampleDates := smp.map (fun x => ld.dateAt x.1)
      splitIdx := splitIndex smp.length ld.trainSplit }

theorem collect_eq_some_of_forall {α β : Type} (l : List α) (g : α → Option β)
    (g' : α → β) (h : ∀ x ∈ l, g x = some (g' x)) :
    collect l g = some (l.map g') := by
  induction l with
  | nil => rfl
  | cons x xs ih =>
    unfold collect
    rw [h x (by simp), ih (fun y hy => h y (by simp [hy]))]
    rfl

theorem collect_eq_none_of_mem {α β : Type} (l : List α) (g : α → Option β)
    (x : α) (hx : x ∈ l) (hgx : g x = none) : collect l g = none := by
  induction l with
  | nil => simp at hx
  | cons y ys ih =>
    unfold collect
    rcases List.mem_cons.mp hx with rfl | hx
    · rw [hgx]
    · cases hgy : g y with
      | none => rfl
      | some z => rw [ih hx]; rfl

theorem collect_isSome_elem {α β : Type} (l : List α) (g : α → Option β)
    (ys : List β) (h : collect l g = some ys) :
    ys.length = l.length ∧
      ∀ i : ℕ, ∀ hi : i < l.length, g (l.get ⟨i, hi⟩) = ys.get? i := by
  induction l generalizing ys with
  | nil =>
    unfold collect at h
    cases h
    exact ⟨rfl, fun i hi => absurd hi (by simp)⟩
  | cons x xs ih =>
    unfold collect at h
    cases hgx : g x with
    | none => rw [hgx] at h; cases h
    | some y =>
      rw [hgx] at h
      cases hcol : collect xs g with
      | none => rw [hcol] at h; cases h
      | some zs =>
        rw [hcol] at h
        simp only [Option.map_some'] at h
        cases h
        rcases ih zs hcol with ⟨hlen, helem⟩
        refine ⟨by simp [hlen], ?_⟩
        intro i hi
        cases i with
        | zero => simpa using hgx
        | succ j =>
          have hj : j < xs.length := by simpa using hi
          simpa using helem j hj

theorem collect_isSome_of_forall {α β : Type} (l : List α) (g : α → Option β)
    (h : ∀ x ∈ l, (g x).isSome) : (collect l g).isSome := by
  induction l with
  | nil => rfl
  | cons x xs ih =>
    unfold collect
    cases hgx : g x with
    | none =>
      have hx := h x (by simp)
      rw [hgx] at hx
      simp at hx
    | some y =>
      have := ih (fun z hz => h z (by simp [hz]))
      cases hcol : collect xs g with
      | none => rw [hcol] at this; simp at this
      | some zs => simp

theorem filterMap_length_of_forall_isSome {α β : Type} (l : List α)
    (f : α → Option β) (h : ∀ x ∈ l, (f x).isSome) :
    (l.filterMap f).length = l.length := by
  induction l with
  | nil => rfl
  | cons x xs ih =>
    rcases Option.isSome_iff_exists.mp (h x (by simp)) with ⟨y, hy⟩
    rw [List.filterMap_cons, hy]
    simp [ih (fun z hz => h z (by simp [hz]))]

/-- Every finite position of the cube is populated: all normalized features
and all raw closes are finite at every in-range index. -/
def noMissing (ld : Loader) : Prop :=
  (∀ s < ld.numSymbols, ∀ f < ld.numFeatures, ∀ t < ld.numDates,
    (ld.norm s f t).isSome) ∧
  (∀ s < ld.numSymbols, ∀ t < ld.numDates, (ld.closeRaw s t).isSome)

instance (ld : Loader) : Decidable (noMissing ld) := by
  unfold noMissing
  infer_instance

theorem mem_anchorList (ld : Loader) (a : ℕ) :
    a ∈ anchorList ld ↔ ld.sequenceLength - 1 ≤ a ∧
      a < ld.numDates - ld.predictionHorizon := by
  unfold anchorList
  rw [List.mem_range'_1]
  omega

theorem sampleAt_isSome_of_noMissing (ld : Loader) (a : ℕ)
    (hnm : noMissing ld) (ha : a < ld.numDates - ld.predictionHorizon) :
    (sampleAt ld a).isSome := by
  have hseq : (buildSequence ld a).isSome := by
    unfold buildSequence
    apply collect_isSome_of_forall
    intro i hi
    unfold timestep
    have hcol : (collect (List.range ld.numSymbols) (fun s =>
        collect (List.range ld.numFeatures) (fun f =>
          ld.norm s f (a - (ld.sequenceLength - 1 - i))))).isSome := by
      apply collect_isSome_of_forall
      intro s hs
      apply collect_isSome_of_forall
      intro f hf
      exact hnm.1 s (List.mem_range.mp hs) f (List.mem_range.mp hf)
        (a - (ld.sequenceLength - 1 - i)) (by omega)
    rcases Option.isSome_iff_exists.mp hcol with ⟨ts, hts⟩
    simp [hts]
  have htgt : (buildTarget ld a).isSome := by
    unfold buildTarget
    have hcol : (collect (List.range ld.numSymbols)
        (fun s => targetForSymbol ld a s)).isSome := by
      apply collect_isSome_of_forall
      intro s hs
      unfold targetForSymbol
      cases hbase : ld.closeRaw s a with
      | none =>
        have := hnm.2 s (List.mem_range.mp hs) a (by omega)
        rw [hbase] at this
        simp at this
      | some base =>
        apply collect_isSome_of_forall
        intro k hk
        have hk' : k < ld.predictionHorizon := List.mem_range.mp hk
        have := hnm.2 s (List.mem_range.mp hs) (a + k + 1) (by omega)
        rcases Option.isSome_iff_exists.mp this with ⟨fut, hfut⟩
        simp [hfut]
    rcases Option.isSome_iff_exists.mp hcol with ⟨ts, hts⟩
    simp [hts]
  rcases Option.isSome_iff_exists.mp hseq with ⟨sq, hsq⟩
  rcases Option.isSome_iff_exists.mp htgt with ⟨tg, htg⟩
  simp [sampleAt, hsq, htg]

/-- C1: for a cube with `D` dates, window length `L` and horizon `H`, the
sample count never exceeds `D + 1 - L - H` (truncated at 0), and when no
value of the cube is missing it equals exactly `D + 1 - L - H`. -/
theorem claim_C1_window_count (ld : Loader) (hL : 1 ≤ ld.sequenceLength) :
    numSamples ld ≤
      ld.numDates + 1 - ld.sequenceLength - ld.predictionHorizon ∧
    (noMissing ld →
      numSamples ld =
        ld.numDates + 1 - ld.sequenceLength - ld.predictionHorizon) := by
  have hlen : (anchorList ld).length =
      (ld.numDates - ld.predictionHorizon) - (ld.sequenceLength - 1) := by
    unfold anchorList
    exact List.length_range' _ _ _
  constructor
  · calc numSamples ld ≤ (anchorList ld).length :=
      List.length_filterMap_le (sampleAt ld) (anchorList ld)
    _ ≤ ld.numDates + 1 - ld.sequenceLength - ld.predictionHorizon := by omega
  · intro hnm
    unfold numSamples samples
    rw [filterMap_length_of_forall_isSome (anchorList ld) (sampleAt ld) ?hval]
    · omega
    case hval =>
      intro a ha
      exact sampleAt_isSome_of_noMissing ld a hnm ((mem_anchorList ld a).mp ha).2

/-- A concrete loader: 1 symbol, 1 feature, 4 dates, window 2, horizon 1, no
missing data, raw closes increasing with the date. -/
def exLoader : Loader :=
  { sequenceLength := 2
    predictionHorizon := 1
    trainSplit := 4 / 5
    numSymbols := 1
    numFeatures := 1
    numDates := 4
    dateAt := fun t => t
    norm := fun _ _ _ => some 1
    closeRaw := fun _ t => some t }

/-- Witness for C1: the concrete loader has no missing data and produces
exactly 4 + 1 - 2 - 1 = 2 samples. -/
theorem claim_C1_window_count_witness :
    1 ≤ exLoader.sequenceLength ∧ noMissing exLoader ∧ numSamples exLoader = 2 :=
  ⟨by decide, by decide,
    (claim_C1_window_count exLoader (by decide)).2 (by decide)⟩

theorem flatten_getElem_uniform {α : Type} (L : List (List α)) :
    ∀ (H s k : ℕ), (∀ l ∈ L, l.length = H) → k < H →
      ∀ hs : s < L.length, L.flatten[s * H + k]? = (L.get ⟨s, hs⟩)[k]? := by
  induction L with
  | nil => intro H s k _ _ hs; simp at hs
  | cons l L ih =>
    intro H s k hH hk hs
    have hl : l.length = H := hH l (by simp)
    cases s with
    | zero =>
      rw [List.flatten_cons, List.getElem?_append, if_pos (by omega)]
      simp
    | succ t =>
      rw [List.flatten_cons, List.getElem?_append_right (by nlinarith)]
      have harith : (t + 1) * H + k - l.length = t * H + k := by
        rw [hl]
        ring_nf
        omega
      rw [harith]
      have ht : t < L.length := by simpa using hs
      have := ih H t k (fun m hm => hH m (by simp [hm])) hk ht
      simpa using this

theorem targetForSymbol_length (ld : Loader) (a s : ℕ) (block : List ℕ)
    (h : targetForSymbol ld a s = some block) :
    block.length = ld.predictionHorizon := by
  unfold targetForSymbol at h
  cases hbase : ld.closeRaw s a with
  | none => rw [hbase] at h; cases h
  | some base =>
    rw [hbase] at h
    have := (collect_isSome_elem _ _ block h).1
    simpa using this

theorem sampleAt_fst (ld : Loader) (a : ℕ) (x : ℕ × List (List ℚ) × List ℕ)
    (h : sampleAt ld a = some x) : x.1 = a := by
  unfold sampleAt at h
  cases hseq : buildSequence ld a with
  | none => rw [hseq] at h; cases h
  | some sq =>
    rw [hseq] at h
    cases htgt : buildTarget ld a with
    | none => rw [htgt] at h; cases h
    | some tg =>
      rw [htgt] at h
      cases h
      rfl

/-- C2: whenever a label vector is emitted at anchor `a`, its entry for
symbol `s` and future offset `k` is 1 exactly when the raw close at
`a + k + 1` strictly exceeds the raw close at `a`; and an anchor with a
non-finite anchor close or any non-finite future close contributes no sample
at all. -/
theorem claim_C2_labels (ld : Loader) (a : ℕ) :
    (∀ tgt, buildTarget ld a = some tgt →
      ∀ s, s < ld.numSymbols → ∀ k, k < ld.predictionHorizon →
        ∃ base fut : ℚ, ld.closeRaw s a = some base ∧
          ld.closeRaw s (a + k + 1) = some fut ∧
          tgt[s * ld.predictionHorizon + k]? =
            some (if base < fut then (1 : ℕ) else 0)) ∧
    ((∃ s, s < ld.numSymbols ∧ (ld.closeRaw s a = none ∨
        ∃ k, k < ld.predictionHorizon ∧ ld.closeRaw s (a + k + 1) = none)) →
      ∀ x ∈ samples ld, x.1 ≠ a) := by
  constructor
  · intro tgt htgt s hs k hk
    unfold buildTarget at htgt
    cases hcol : collect (List.range ld.numSymbols)
        (fun s => targetForSymbol ld a s) with
    | none => rw [hcol] at htgt; cases htgt
    | some ts =>
      rw [hcol] at htgt
      simp only [Option.map_some'] at htgt
      obtain rfl : ts.flatten = tgt := by injection htgt
      obtain ⟨hlen, helem⟩ := collect_isSome_elem _ _ ts hcol
      have hs' : s < (List.range ld.numSymbols).length := by simpa using hs
      have h1 : targetForSymbol ld a s = ts.get? s := by
        have := helem s hs'
        simpa [List.get_range] using this
      have hsts : s < ts.length := by
        rw [hlen]
        simpa using hs
      rw [List.get?_eq_get hsts] at h1
      have hHall : ∀ l ∈ ts, l.length = ld.predictionHorizon := by
        intro l hl
        rcases List.mem_iff_getElem.mp hl with ⟨i, hi, rfl⟩
        have hi' : i < (List.range ld.numSymbols).length := by
          rw [← hlen]; exact hi
        have h2 : targetForSymbol ld a i = ts.get? i := by
          have := helem i hi'
          simpa [List.get_range] using this
        rw [List.get?_eq_get hi] at h2
        have := targetForSymbol_length ld a i (ts.get ⟨i, hi⟩) h2
        simpa using this
      have hblock := h1
      unfold targetForSymbol at hblock
      cases hbase : ld.closeRaw s a with
      | none => rw [hbase] at hblock; cases hblock
      | some base =>
        rw [hbase] at hblock
        obtain ⟨blen, belem⟩ := collect_isSome_elem _ _ _ hblock
        have hk' : k < (List.range ld.predictionHorizon).length := by
          simpa using hk
        have h3 := belem k hk'
        cases hfut : ld.closeRaw s (a + k + 1) with
        | none =>
          rw [List.get_range] at h3
          rw [hfut] at h3
          have hkb : k < (ts.get ⟨s, hsts⟩).length := by
            rw [blen]; simpa using hk
          rw [List.get?_eq_get hkb] at h3
          cases h3
        | some fut =>
          refine ⟨base, fut, rfl, rfl, ?_⟩
          rw [flatten_getElem_uniform ts ld.predictionHorizon s k hHall hk hsts]
          rw [List.get_range] at h3
          rw [hfut] at h3
          simp only [Option.map_some'] at h3
          rw [← List.get?_eq_getElem?, ← h3]
  · rintro ⟨s, hs, hmiss⟩ x hx heq
    rcases List.mem_filterMap.mp hx with ⟨b, hb, hsb⟩
    have hfst : x.1 = b := sampleAt_fst ld b x hsb
    have hba : b = a := by rw [← hfst, heq]
    subst hba
    have htfs : targetForSymbol ld b s = none := by
      unfold targetForSymbol
      rcases hmiss with hclose | ⟨k, hk, hfutnone⟩
      · rw [hclose]
      · cases hbase : ld.closeRaw s b with
        | none => rfl
        | some base =>
          exact collect_eq_none_of_mem (List.range ld.predictionHorizon) _
            k (List.mem_range.mpr hk) (by rw [hfutnone]; rfl)
    have hbt : buildTarget ld b = none := by
      unfold buildTarget
      rw [collect_eq_none_of_mem (List.range ld.numSymbols) _
        s (List.mem_range.mpr hs) htfs]
      rfl
    unfold sampleAt at hsb
    rw [hbt] at hsb
    cases hseq : buildSequence ld b with
    | none => rw [hseq] at hsb; cases hsb
    | some sq => rw [hseq] at hsb; cases hsb

/-- A loader like `exLoader` but whose raw close at date index 2 is missing,
so anchor 1 needs a non-finite future close. -/
def exLoaderGap : Loader :=
  { exLoader with closeRaw := fun _ t => if t = 2 then none else some t }

/-- Witness for C2: anchor 1 of the concrete loader yields the label vector
`[1]` (the close rises from 1 to 2) whose single entry matches the raw
comparison, and in the gapped loader no sample has anchor 1. -/
theorem claim_C2_labels_witness :
    (∃ base fut : ℚ, exLoader.closeRaw 0 1 = some base ∧
      exLoader.closeRaw 0 (1 + 0 + 1) = some fut ∧
      ([1] : List ℕ)[0 * exLoader.predictionHorizon + 0]? =
        some (if base < fut then (1 : ℕ) else 0)) ∧
    (∀ x ∈ samples exLoaderGap, x.1 ≠ 1) :=
  ⟨(claim_C2_labels exLoader 1).1 [1] (by decide) 0 (by decide) 0 (by decide),
   (claim_C2_labels exLoaderGap 1).2 ⟨0, by decide, Or.inr ⟨0, by decide, by decide⟩⟩⟩

/-- Samples are emitted in strictly increasing anchor order. -/
theorem samples_pairwise_anchor (ld : Loader) :
    List.Pairwise (fun x y => x.1 < y.1) (samples ld) := by
  unfold samples
  rw [List.pairwise_filterMap]
  have hp : List.Pairwise (· < ·) (anchorList ld) := by
    unfold anchorList
    exact List.pairwise_lt_range' _ _
  refine hp.imp ?_
  intro a b hab x hx y hy
  rw [Option.mem_def] at hx hy
  rw [sampleAt_fst ld a x hx, sampleAt_fst ld b y hy]
  exact hab

/-- C3: with at least two samples, the split position is the clamp of
`floor(N · p)` into `[1, N-1]`, the builder returns the sample prefix of that
length as train set and the remaining suffix as test set (in original order,
with no overlap), and with a monotone date index every train anchor date is
at most every test anchor date. -/
theorem claim_C3_chronological_split (ld : Loader)
    (h2 : 2 ≤ numSamples ld)
    (hmono : ∀ i j : ℕ, i ≤ j → ld.dateAt i ≤ ld.dateAt j) :
    1 ≤ splitIndex (numSamples ld) ld.trainSplit ∧
    splitIndex (numSamples ld) ld.trainSplit < numSamples ld ∧
    (splitIndex (numSamples ld) ld.trainSplit : ℤ) =
      max 1 (min ((numSamples ld : ℤ) - 1)
        ⌊(numSamples ld : ℚ) * ld.trainSplit⌋) ∧
    createWindowedDataset ld = Except.ok
      { train := (samples ld).take (splitIndex (numSamples ld) ld.trainSplit)
        test := (samples ld).drop (splitIndex (numSamples ld) ld.trainSplit)
        sampleDates := (samples ld).map (fun x => ld.dateAt x.1)
        splitIdx := splitIndex (numSamples ld) ld.trainSplit } ∧
    (samples ld).take (splitIndex (numSamples ld) ld.trainSplit) ++
      (samples ld).drop (splitIndex (numSamples ld) ld.trainSplit) =
        samples ld ∧
    (∀ x ∈ (samples ld).take (splitIndex (numSamples ld) ld.trainSplit),
      ∀ y ∈ (samples ld).drop (splitIndex (numSamples ld) ld.trainSplit),
        ld.dateAt x.1 ≤ ld.dateAt y.1) := by
  have hk1 : 1 ≤ splitIndex (numSamples ld) ld.trainSplit := by
    unfold splitIndex
    omega
  have hkn : splitIndex (numSamples ld) ld.trainSplit < numSamples ld := by
    unfold splitIndex
    omega
  refine ⟨hk1, hkn, ?_, ?_, List.take_append_drop _ _, ?_⟩
  · unfold splitIndex
    push_cast [Nat.cast_min, Nat.cast_max]
    omega
  · unfold createWindowedDataset
    rw [if_neg (by unfold numSamples at h2; omega),
      if_neg (by unfold numSamples at h2; omega)]
    rfl
  · intro x hx y hy
    rcases List.mem_iff_getElem.mp hx with ⟨i, hi, rfl⟩
    rcases List.mem_iff_getElem.mp hy with ⟨j, hj, rfl⟩
    simp only [List.getElem_take, List.getElem_drop]
    have hilen : i < (samples ld).length := by
      rw [List.length_take] at hi
      unfold numSamples at hkn
      omega
    have hjlen : splitIndex (numSamples ld) ld.trainSplit + j <
        (samples ld).length := by
      rw [List.length_drop] at hj
      omega
    have hik : i < splitIndex (numSamples ld) ld.trainSplit := by
      rw [List.length_take] at hi
      omega
    have hlt := List.pairwise_iff_getElem.mp (samples_pairwise_anchor ld)
      i (splitIndex (numSamples ld) ld.trainSplit + j) hilen hjlen (by omega)
    exact hmono _ _ (le_of_lt hlt)

/-- Witness for C3: the concrete loader has two samples, a monotone date
index, and a split position of at least 1. -/
theorem claim_C3_chronological_split_witness :
    2 ≤ numSamples exLoader ∧
    (∀ i j : ℕ, i ≤ j → exLoader.dateAt i ≤ exLoader.dateAt j) ∧
    1 ≤ splitIndex (numSamples exLoader) exLoader.trainSplit :=
  ⟨by decide, fun i j h => Int.ofNat_le.mpr h,
    (claim_C3_chronological_split exLoader (by decide)
      (fun i j h => Int.ofNat_le.mpr h)).1⟩

theorem fillForwardAux_all_none (l : List (Option ℚ))
    (h : ∀ x ∈ l, x = none) : fillForwardAux none l = l := by
  induction l with
  | nil => rfl
  | cons x xs ih =>
    have hx : x = none := h x (by simp)
    subst hx
    unfold fillForwardAux
    rw [ih (fun y hy => h y (by simp [hy]))]

/-- An all-missing series is left untouched by gap-filling. -/
theorem fillMissingValues_all_none (l : List (Option ℚ))
    (h : ∀ x ∈ l, x = none) : fillMissingValues l = l := by
  unfold fillMissingValues
  rw [fillForwardAux_all_none l h,
    fillForwardAux_all_none l.reverse (fun x hx => h x (List.mem_reverse.mp hx)),
    List.reverse_reverse]

/-- An all-missing series hits the degenerate branch of `minMaxScale`
(`Math.min()` over an empty filtered list is Infinity) and comes out as all
zeros — finite, not missing. -/
theorem minMaxScale_all_none (l : List (Option ℚ))
    (h : ∀ x ∈ l, x = none) : minMaxScale l = l.map (fun _ => some 0) := by
  have hsm : somes l = [] := by
    unfold somes
    exact List.filterMap_eq_nil_iff.mpr (fun a ha => h a ha)
  unfold minMaxScale
  rw [hsm]

/-- Counterexample to C8: the all-missing series `[NaN, NaN]` survives
gap-filling unchanged but min-max normalization turns it into the finite
all-zero series `[0, 0]` — it does not remain non-finite through
normalization. -/
theorem claim_C8_counterexample :
    fillMissingValues [none, none] = [none, none] ∧
    minMaxScale (fillMissingValues [none, none]) =
      [some (0 : ℚ), some 0] := by
  constructor <;> decide

/-- C8 as amended: an all-missing series stays all-missing through
gap-filling; min-max normalization then maps it to all zeros (the degenerate
branch), so the normalized cube is finite; the invalidity still propagates
downstream through the raw close series: a symbol whose raw closes are all
missing makes every window invalid, so no samples are produced. -/
theorem claim_C8_all_missing_amended (l : List (Option ℚ))
    (hall : ∀ x ∈ l, x = none) :
    fillMissingValues l = l ∧
    minMaxScale l = l.map (fun _ => some 0) ∧
    (∀ (ld : Loader) (s : ℕ), s < ld.numSymbols →
      (∀ t, ld.closeRaw s t = none) → samples ld = []) := by
  refine ⟨fillMissingValues_all_none l hall, minMaxScale_all_none l hall, ?_⟩
  intro ld s hs hnone
  unfold samples
  apply List.filterMap_eq_nil_iff.mpr
  intro a _
  have htfs : targetForSymbol ld a s = none := by
    unfold targetForSymbol
    rw [hnone a]
  have hbt : buildTarget ld a = none := by
    unfold buildTarget
    rw [collect_eq_none_of_mem (List.range ld.numSymbols) _
      s (List.mem_range.mpr hs) htfs]
    rfl
  unfold sampleAt
  rw [hbt]
  cases buildSequence ld a <;> rfl

/-- A loader whose only symbol has every raw close missing. -/
def exLoaderAllGap : Loader :=
  { exLoader with closeRaw := fun _ _ => none }

/-- Witness for the amended C8 at the concrete series `[NaN, NaN]` and the
concrete all-missing loader. -/
theorem claim_C8_all_missing_amended_witness :
    fillMissingValues [none, none] = [none, none] ∧
    minMaxScale [none, none] = ([none, none] : List (Option ℚ)).map
      (fun _ => some 0) ∧
    samples exLoaderAllGap = [] :=
  ⟨(claim_C8_all_missing_amended [none, none] (by decide)).1,
   (claim_C8_all_missing_amended [none, none] (by decide)).2.1,
   (claim_C8_all_missing_amended [none, none] (by decide)).2.2
     exLoaderAllGap 0 (by decide) (fun t => rfl)⟩

/-- One parsed CSV row (data-loader line 169): normalized date (as an
ordinal), symbol (as an identifier), and the parsed open/close, `none` where
`Number.parseFloat` produced a non-finite value. -/
structure Row where
  date : ℤ
  symbol : ℕ
  openPrice : Option ℚ
  closePrice : Option ℚ

/-- The sorted distinct dates of the universe (data-loader lines 180-188). -/
def cubeDates (rows : List Row) : List ℤ :=
  ((rows.map Row.date).dedup).mergeSort (fun a b => decide (a ≤ b))

/-- The sorted distinct symbols of the universe (data-loader line 189). -/
def cubeSymbols (rows : List Row) : List ℕ :=
  ((rows.map Row.symbol).dedup).mergeSort (fun a b => decide (a ≤ b))

/-- Scatter pass for one symbol and one field (data-loader lines 191-209):
start from an all-missing array over the date axis and write each matching
row's value at its date index. -/
def scatterSeries (rows : List Row) (dates : List ℤ) (s : ℕ)
    (sel : Row → Option ℚ) : List (Option ℚ) :=
  rows.foldl
    (fun arr r =>
      if r.symbol = s then arr.set (dates.indexOf r.date) (sel r) else arr)
    (List.replicate dates.length none)

/-- One-step returns from the filled close series (data-loader lines
217-226): 0 at position 0 and wherever a needed value is non-finite or the
previous close is 0. -/
def returnsOf (closes : List (Option ℚ)) : List (Option ℚ) :=
  (List.range closes.length).map (fun i =>
    if i = 0 then some 0
    else
      match closes.getD i none, closes.getD (i - 1) none with
      | some v, some p => if p = 0 then some 0 else some ((v - p) / p)
      | _, _ => some 0)

/-- Three-step momentum (data-loader lines 228-237). -/
def momentum3Of (closes : List (Option ℚ)) : List (Option ℚ) :=
  (List.range closes.length).map (fun i =>
    if i < 3 then some 0
    else
      match closes.getD i none, closes.getD (i - 3) none with
      | some v, some b => if b = 0 then some 0 else some ((v - b) / b)
      | _, _ => some 0)

/-- Trailing five-day volatility (data-loader lines 239-257): coefficient of
variation over the window, 0 when the window is incomplete, has a non-finite
entry, or has mean 0.  `sqrt` abstracts `Math.sqrt`. -/
def volatility5Of (sqrt : ℚ → ℚ) (closes : List (Option ℚ)) :
    List (Option ℚ) :=
  (List.range closes.length).map (fun i =>
    if i < 4 then some 0
    else
      match collect ((closes.drop (i - 4)).take 5) id with
      | none => some 0
      | some ws =>
        let mean := ws.sum / (ws.length : ℚ)
        if mean = 0 then some 0
        else
          let variance := (ws.map (fun v => (v - mean) ^ 2)).sum /
            (ws.length : ℚ)
          some (sqrt variance / mean))

/-- The state `buildFeatureCube` leaves on the loader: the universe, the
gap-filled raw series, the derived series, and the per-symbol normalized
series, each indexed by symbol identifier. -/
structure CubeResult where
  dates : List ℤ
  symbols : List ℕ
  openFilled : ℕ → List (Option ℚ)
  closeFilled : ℕ → List (Option ℚ)
  returnSeries : ℕ → List (Option ℚ)
  momentum3Series : ℕ → List (Option ℚ)
  volatility5Series : ℕ → List (Option ℚ)
  normOpen : ℕ → List (Option ℚ)
  normClose : ℕ → List (Option ℚ)
  normReturn : ℕ → List (Option ℚ)
  normMomentum3 : ℕ → List (Option ℚ)
  normVolatility5 : ℕ → List (Option ℚ)

/-- `buildFeatureCube` (data-loader lines 179-274): derive the universe,
scatter and gap-fill the raw series, compute the derived features from the
filled closes, and normalize each series per symbol.  The source method
contains no throw statement: on an empty row collection it simply produces
an empty universe. -/
def buildFeatureCube (sqrt : ℚ → ℚ) (rows : List Row) : CubeResult :=
  let dates := cubeDates rows
  let openF := fun s => fillMissingValues (scatterSeries rows dates s Row.openPrice)
  let closeF := fun s => fillMissingValues (scatterSeries rows dates s Row.closePrice)
  let ret := fun s => returnsOf (closeF s)
  let mom := fun s => momentum3Of (closeF s)
  let vol := fun s => volatility5Of sqrt (closeF s)
  { dates := dates
    symbols := cubeSymbols rows
    openFilled := openF
    closeFilled := closeF
    returnSeries := ret
    momentum3Series := mom
    volatility5Series := vol
    normOpen := fun s => minMaxScale (openF s)
    normClose := fun s => minMaxScale (closeF s)
    normReturn := fun s => standardScale sqrt (ret s)
    normMomentum3 := fun s => standardScale sqrt (mom s)
    normVolatility5 := fun s => standardScale sqrt (vol s) }

/-- Counterexample to C9: on an empty row collection `buildFeatureCube` does
not fail — it returns the empty cube (zero distinct dates and zero distinct
symbols).  In the source the method body contains no throw statement at
all. -/
theorem claim_C9_counterexample :
    (buildFeatureCube (fun q => q) []).dates = [] ∧
    (buildFeatureCube (fun q => q) []).symbols = [] := by
  constructor <;> simp [buildFeatureCube, cubeDates, cubeSymbols]

/-- C9 as amended: `buildFeatureCube` never fails; on zero rows it returns an
empty universe, and the insufficiency error instead surfaces downstream in
`createWindowedDataset`, which fails with the no-sequences error whenever the
date axis is empty. -/
theorem claim_C9_empty_universe_amended (sqrt : ℚ → ℚ) :
    (buildFeatureCube sqrt []).dates = [] ∧
    (buildFeatureCube sqrt []).symbols = [] ∧
    (∀ ld : Loader, ld.numDates = 0 →
      createWindowedDataset ld = Except.error DatasetError.noSequences) := by
  refine ⟨by simp [buildFeatureCube, cubeDates],
    by simp [buildFeatureCube, cubeSymbols], ?_⟩
  intro ld hD
  have hsmp : samples ld = [] := by
    unfold samples anchorList
    rw [hD]
    simp
  unfold createWindowedDataset
  rw [hsmp]
  rfl

/-- Witness for the amended C9: the identity as the abstract square root and
the concrete loader with an empty date axis. -/
theorem claim_C9_empty_universe_amended_witness :
    (buildFeatureCube (fun q => q) []).symbols = [] ∧
    createWindowedDataset { exLoader with numDates := 0 } =
      Except.error DatasetError.noSequences :=
  ⟨(claim_C9_empty_universe_amended (fun q => q)).2.1,
   (claim_C9_empty_universe_amended (fun q => q)).2.2
     { exLoader with numDates := 0 } rfl⟩

end StockGru
